import Mathlib

/-!
Verification of the expense-tracker data path (`src/idb.js`, `src/app.jsx`):
the IndexedDB record store (save / getAll / delete, auto-increment key) and
the pure view logic (month filter, per-category totals, date sorting,
deletion from the in-memory list).

Modelling conventions:
* JavaScript numbers are embedded as exact rationals `ℚ`; `NaN` (the result
  of `parseFloat` on a non-numeric string) is `Option.none`.
* `new Date(s)` on an ISO `YYYY-MM-DD` string, followed by `getFullYear()` /
  `getMonth()`, is modelled by `parseDate` under a UTC environment; every
  string the parser rejects plays the role of an Invalid Date, whose
  `getFullYear()` is `NaN`, so every comparison against it is false.
* The IndexedDB object store (keyPath `"id"`, `autoIncrement: true`) is a
  list of `(key, value)` pairs in ascending key order plus the key
  generator's next value, which starts at 1.
-/

/-! ## JavaScript string primitives -/

/-- Splitting a character list at every occurrence of `sep`, the semantics of
JavaScript's `String.prototype.split` with a one-character separator (and of
`String.splitOn`), written as structural recursion so that it evaluates. -/
def splitOnChar (sep : Char) : List Char → List (List Char)
  | [] => [[]]
  | c :: rest =>
    match splitOnChar sep rest with
    | [] => [[]]
    | cur :: parts => if c = sep then [] :: cur :: parts else (c :: cur) :: parts

/-- The value of a non-empty all-digit character list, `none` otherwise: the
meaning of JavaScript's `Number(s)` on the digit strings the app's month and
date inputs produce (`none` plays the role of `NaN`). -/
def natOfDigits (cs : List Char) : Option Nat :=
  if !cs.isEmpty && cs.all Char.isDigit then
    some (cs.foldl (fun n c => 10 * n + (c.toNat - 48)) 0)
  else none

/-- JavaScript's `parseFloat` (and `Number`) on a plain decimal string with an
optional leading minus sign: `none` models `NaN`. Exponent forms are not
produced by the app's number input and are treated as non-numeric. -/
def toNum (s : String) : Option ℚ :=
  let core : List Char → Option ℚ := fun cs =>
    match splitOnChar '.' cs with
    | [i] => (natOfDigits i).map (fun n => (n : ℚ))
    | [i, f] =>
      if i.isEmpty then
        (natOfDigits f).map (fun m => (m : ℚ) / 10 ^ f.length)
      else if f.isEmpty then
        (natOfDigits i).map (fun n => (n : ℚ))
      else do
        let n ← natOfDigits i
        let m ← natOfDigits f
        pure ((n : ℚ) + (m : ℚ) / 10 ^ f.length)
    | _ => none
  match s.data with
  | '-' :: rest => (core rest).map Neg.neg
  | cs => core cs

/-- JavaScript's `String.prototype.trim`: leading and trailing whitespace
removed, over the string's character list. -/
def trimChars (cs : List Char) : List Char :=
  ((cs.dropWhile Char.isWhitespace).reverse.dropWhile Char.isWhitespace).reverse

/-! ## Date parsing (`new Date(s)` + `getFullYear` / `getMonth`, UTC) -/

/-- Gregorian leap-year test, as the ECMAScript date arithmetic defines it. -/
def isLeap (y : Nat) : Bool :=
  (y % 4 = 0 && y % 100 ≠ 0) || y % 400 = 0

/-- Number of days of month `m` (1-based) of year `y`. -/
def daysInMonth (y m : Nat) : Nat :=
  if m = 2 then (if isLeap y then 29 else 28)
  else if m = 4 ∨ m = 6 ∨ m = 9 ∨ m = 11 then 30
  else 31

/-- The (year, month, day) a JavaScript `new Date(s)` extracts from an ISO
`YYYY-MM-DD` string, read back through `getFullYear()` / `getMonth() + 1` /
`getDate()` in a UTC environment. Out-of-range components and every other
format give `none`, the model of an Invalid Date (whose components are
`NaN`). -/
def parseDate (s : String) : Option (Nat × Nat × Nat) :=
  match splitOnChar '-' s.data with
  | [ys, ms, ds] =>
    if ys.length = 4 ∧ ms.length = 2 ∧ ds.length = 2 then do
      let y ← natOfDigits ys
      let m ← natOfDigits ms
      let d ← natOfDigits ds
      if 1 ≤ m ∧ m ≤ 12 ∧ 1 ≤ d ∧ d ≤ daysInMonth y m then pure (y, m, d)
      else none
    else none
  | _ => none

/-- The app's `monthYear.split('-').map(Number)` destructured into
`[year, month]`: the first two dash-separated parts read as numbers, any
further parts ignored; a missing or non-numeric part means a `NaN`
destructuring, modelled by `none`. -/
def parseYM (s : String) : Option (Int × Int) :=
  match splitOnChar '-' s.data with
  | ys :: ms :: _ => do
    let y ← natOfDigits ys
    let m ← natOfDigits ms
    pure ((y : Int), (m : Int))
  | _ => none

/-- A sort key for the comparator `new Date(b.date) - new Date(a.date)`: on
dates `parseDate` accepts (month ≤ 12, day ≤ 31) the encoding
`y * 10000 + m * 100 + d` is strictly monotone in the calendar order, so it
has the same comparison results as the UTC timestamp. Strings `parseDate`
rejects give the JavaScript comparator `NaN`, for which the sort order is
unspecified; they are sent to `0` here. -/
def dateKey (s : String) : Int :=
  match parseDate s with
  | some (y, m, d) => (y : Int) * 10000 + (m : Int) * 100 + (d : Int)
  | none => 0

/-! ## The record store (`src/idb.js`, class `IDBWrapper`) -/

/-- The observable state of one IndexedDB object store created with
`keyPath: "id", autoIncrement: true`: the stored `(id, value)` pairs in
ascending key order, and the key generator's next value (1 on a fresh
store). -/
structure StoreState (α : Type) where
  records : List (Nat × α)
  nextKey : Nat
deriving DecidableEq, Repr

namespace IDBWrapper

/-- A freshly created object store: no records, key generator at 1. -/
def emptyStore {α : Type} : StoreState α :=
  ⟨[], 1⟩

/-- `save(data)` on a value carrying no `id` field: `store.put(data)` lets
the key generator assign the next key, stores the value under it (appended,
since the new key is larger than every existing one), bumps the generator
and resolves with the key. -/
def save {α : Type} (s : StoreState α) (data : α) : Nat × StoreState α :=
  (s.nextKey, ⟨s.records ++ [(s.nextKey, data)], s.nextKey + 1⟩)

/-- `getAll()`: every stored record, in ascending key order. -/
def getAll {α : Type} (s : StoreState α) : List (Nat × α) :=
  s.records

/-- `delete(id)`: removes the record stored under `id`; IndexedDB's `delete`
succeeds whether or not the key is present, and does not touch the key
generator. -/
def delete {α : Type} (s : StoreState α) (id : Nat) : StoreState α :=
  ⟨s.records.filter (fun p => decide (p.1 ≠ id)), s.nextKey⟩

/-- `clear()`: removes every record; the key generator is not reset. -/
def clear {α : Type} (s : StoreState α) : StoreState α :=
  ⟨[], s.nextKey⟩

end IDBWrapper

/-- The invariant every store reachable from `emptyStore` satisfies: the key
generator is at least 1 and strictly above every stored key. -/
def storeWf {α : Type} (s : StoreState α) : Prop :=
  1 ≤ s.nextKey ∧ ∀ p ∈ s.records, p.1 < s.nextKey

/-! ## The component's data (`src/app.jsx`) -/

/-- One expense as the component holds it in memory: the stored fields plus
the store-assigned `id`. -/
structure Expense where
  id : Nat
  amount : ℚ
  category : String
  description : String
  date : String
deriving DecidableEq, Repr

/-- The controlled form state: every field is the raw input string. -/
structure FormData where
  amount : String
  category : String
  description : String
  date : String
deriving DecidableEq, Repr

/-- The value `addExpense` persists: `{...formData, amount: parseFloat(...)}`;
the amount is `none` when `parseFloat` would give `NaN`. -/
structure ExpenseData where
  amount : Option ℚ
  category : String
  description : String
  date : String
deriving DecidableEq, Repr

/-- The user-visible outcome of one `addExpense` submission: a validation
message shown without saving, or a successful save with the assigned id. -/
inductive AddResult where
  | rejected (msg : String)
  | saved (id : Nat)
deriving DecidableEq, Repr

/-- The check `formData.amount <= 0`: the string is coerced to a number and
compared; `NaN` (`none`) compares false. -/
def leZeroNum : Option ℚ → Bool
  | some q => decide (q ≤ 0)
  | none => false

/-- The `addExpense` handler's effect on the store (src/app.jsx lines
135-162): each validation failure shows a message and returns before any save
(`ValidationError`, nothing persisted); otherwise the parsed expense is
saved and the assigned id returned. -/
def addExpense (st : StoreState ExpenseData) (f : FormData) :
    AddResult × StoreState ExpenseData :=
  if f.amount = "" || leZeroNum (toNum f.amount) then
    (.rejected "Amount Must Be Greater Than 0", st)
  else if (trimChars f.description.data).isEmpty then
    (.rejected "Description is required", st)
  else if f.date = "" then
    (.rejected "Date is required", st)
  else
    let r := IDBWrapper.save st ⟨toNum f.amount, f.category, f.description, f.date⟩
    (.saved r.1, r.2)

/-! ## The view logic (`src/app.jsx`) -/

/-- The filter callback of `filteredExpenses`: the record's date is parsed
and its (local, here UTC) year and zero-based month compared against the two
numbers split out of the `YYYY-MM` selector. An unparsable date or selector
makes every comparison against `NaN` false. -/
def monthPred (monthYear : String) (e : Expense) : Bool :=
  match parseYM monthYear, parseDate e.date with
  | some (y, mo), some (ey, em, _) => decide ((ey : Int) = y ∧ (em : Int) - 1 = mo - 1)
  | _, _ => false

/-- `filteredExpenses` (src/app.jsx lines 215-225): the empty selector
(`!monthYear`) yields `[]`; otherwise the list is filtered by year/month
equality. -/
def filteredExpenses (expenses : List Expense) (monthYear : String) : List Expense :=
  if monthYear = "" then [] else expenses.filter (monthPred monthYear)

/-- One step of the `reduce` that builds `categoryTotals`:
`acc[c] = (acc[c] || 0) + a` on a JavaScript object whose keys are the
non-numeric category tokens — an existing key keeps its position and gets the
amount added, a new key is appended. -/
def addToCat : List (String × ℚ) → String → ℚ → List (String × ℚ)
  | [], c, a => [(c, a)]
  | (c₀, t) :: rest, c, a =>
    if c₀ = c then (c₀, t + a) :: rest else (c₀, t) :: addToCat rest c a

/-- `categoryTotals` (src/app.jsx lines 238-241): the per-category sums of
`amount`, as the insertion-ordered key/value list of the object the `reduce`
builds. -/
def categoryTotals (es : List Expense) : List (String × ℚ) :=
  es.foldl (fun acc e => addToCat acc e.category e.amount) []

/-- Reading `acc[c]` from the modelled object: the value at the first (and,
by key uniqueness, only) occurrence of the key. -/
def findAmt : List (String × ℚ) → String → Option ℚ
  | [], _ => none
  | (c₀, t) :: rest, c => if c₀ = c then some t else findAmt rest c

/-- The categories of the input in first-occurrence order, the key order of
the object `categoryTotals` builds. -/
def firstOcc (l : List String) : List String :=
  l.foldl (fun acc c => if c ∈ acc then acc else acc ++ [c]) []

/-- The direct per-category sum the totals are checked against. -/
def sumFor (es : List Expense) (c : String) : ℚ :=
  ((es.filter (fun e => decide (e.category = c))).map Expense.amount).sum

/-- The comparator `(a, b) => new Date(b.date) - new Date(a.date)` as the
"a sorts no later than b" test JavaScript's `sort` derives from it. -/
def dateDescLE (a b : Expense) : Bool :=
  decide (dateKey b.date ≤ dateKey a.date)

/-- `storedExpenses.sort((a, b) => new Date(b.date) - new Date(a.date))`:
a sort of the list under the descending-date comparator. -/
def sortByDateDesc (l : List Expense) : List Expense :=
  l.mergeSort dateDescLE

/-- `fetchExpenses` (src/app.jsx lines 184-199): the stored records sorted by
date descending before they become the in-memory list. -/
def fetchExpenses (stored : List Expense) : List Expense :=
  sortByDateDesc stored

/-- The list update of `addExpense` (src/app.jsx lines 150-156): the new
record appended and the whole list re-sorted by date descending. -/
def addExpenseList (es : List Expense) (e : Expense) : List Expense :=
  sortByDateDesc (es ++ [e])

/-- The list update of a confirmed `deleteExpense` (src/app.jsx lines
170-177): `expenses.filter((expense) => expense.id !== id)`. -/
def deleteExpenseList (es : List Expense) (id : Nat) : List Expense :=
  es.filter (fun e => decide (e.id ≠ id))

/-! ## Supporting lemmas -/

lemma parseYM_empty : parseYM "" = none := by decide

lemma monthPred_of_unparsable {m : String} {e : Expense}
    (h : parseDate e.date = none) : monthPred m e = false := by
  unfold monthPred
  rw [h]
  rcases parseYM m with _ | ⟨y, mo⟩ <;> rfl

lemma monthPred_isSome {m : String} {e : Expense}
    (h : monthPred m e = true) : (parseDate e.date).isSome := by
  rcases hd : parseDate e.date with _ | d
  · rw [monthPred_of_unparsable hd] at h
    exact absurd h (by simp)
  · rfl

/-! ## Claim theorems: the record store -/

/-- C1: for every valid record `r` (over any record type), `save(r)` followed
by `getAll()` contains exactly one record under the assigned id, that record
equals `r`, the assigned id is at least 1 (non-null), and the first save into
a fresh store assigns id 1. -/
theorem save_then_getAll {α : Type} (s : StoreState α) (d : α) (h : storeWf s) :
    (IDBWrapper.getAll (IDBWrapper.save s d).2).filter
        (fun p => decide (p.1 = (IDBWrapper.save s d).1)) = [((IDBWrapper.save s d).1, d)]
      ∧ 1 ≤ (IDBWrapper.save s d).1
      ∧ (IDBWrapper.save (IDBWrapper.emptyStore (α := α)) d).1 = 1 := by
  obtain ⟨h1, h2⟩ := h
  refine ⟨?_, h1, rfl⟩
  simp only [IDBWrapper.save, IDBWrapper.getAll, List.filter_append]
  have hnil : s.records.filter (fun p => decide (p.1 = s.nextKey)) = [] := by
    rw [List.filter_eq_nil_iff]
    intro p hp
    simpa using Nat.ne_of_lt (h2 p hp)
  rw [hnil]
  simp

/-- C1 witness: saving the value `7` into a fresh store of naturals. -/
theorem save_then_getAll_witness :
    (IDBWrapper.getAll (IDBWrapper.save (IDBWrapper.emptyStore (α := Nat)) 7).2).filter
        (fun p => decide (p.1 = (IDBWrapper.save (IDBWrapper.emptyStore (α := Nat)) 7).1))
      = [((IDBWrapper.save (IDBWrapper.emptyStore (α := Nat)) 7).1, 7)]
      ∧ 1 ≤ (IDBWrapper.save (IDBWrapper.emptyStore (α := Nat)) 7).1
      ∧ (IDBWrapper.save (IDBWrapper.emptyStore (α := Nat)) 7).1 = 1 :=
  save_then_getAll IDBWrapper.emptyStore 7
    ⟨Nat.le_refl 1, fun p hp => absurd hp (List.not_mem_nil p)⟩

/-- C2: after `delete(id)` no record with that id remains; deleting again is
the same store (idempotence); and deleting an id no stored record carries
leaves the store exactly as it was. -/
theorem delete_spec {α : Type} (s : StoreState α) (id : Nat) :
    (∀ p ∈ IDBWrapper.getAll (IDBWrapper.delete s id), p.1 ≠ id)
      ∧ IDBWrapper.delete (IDBWrapper.delete s id) id = IDBWrapper.delete s id
      ∧ ((∀ p ∈ s.records, p.1 ≠ id) → IDBWrapper.delete s id = s) := by
  refine ⟨?_, ?_, ?_⟩
  · intro p hp
    simp only [IDBWrapper.getAll, IDBWrapper.delete, List.mem_filter,
      decide_eq_true_eq] at hp
    exact hp.2
  · simp [IDBWrapper.delete, List.filter_filter]
  · intro hall
    obtain ⟨recs, k⟩ := s
    simp only [IDBWrapper.delete, StoreState.mk.injEq, and_true]
    rw [List.filter_eq_self]
    intro p hp
    simpa using hall p hp

/-! ## Claim theorems: month filter -/

/-- C5: with the empty month selector (the `!monthYear` branch, covering both
an absent and an empty selection) the filtered view is the empty list, not
the whole record set. -/
theorem filteredExpenses_empty_selector (S : List Expense) :
    filteredExpenses S "" = [] := by
  simp [filteredExpenses]

/-- C10: a confirmed `deleteExpense(id)` removes from the in-memory list
exactly the records whose id is `id`: the result is a sublist of the input
(so the survivors are unchanged and keep their relative order), and a record
belongs to it exactly when it was in the input with a different id. -/
theorem deleteExpenseList_spec (es : List Expense) (id : Nat) :
    (deleteExpenseList es id).Sublist es
      ∧ ∀ e, e ∈ deleteExpenseList es id ↔ (e ∈ es ∧ e.id ≠ id) := by
  refine ⟨List.filter_sublist es, fun e => ?_⟩
  simp [deleteExpenseList, List.mem_filter]

/-! ## Claim theorems: form validation -/

/-- C7: a submission whose amount is missing (empty input) or parses to a
non-positive number is rejected with the validation message, no save happens,
and `getAll()` afterwards returns exactly what it returned before. -/
theorem addExpense_rejects_nonpositive (st : StoreState ExpenseData) (f : FormData)
    (h : f.amount = "" ∨ ∃ q, toNum f.amount = some q ∧ q ≤ 0) :
    addExpense st f = (AddResult.rejected "Amount Must Be Greater Than 0", st)
      ∧ IDBWrapper.getAll (addExpense st f).2 = IDBWrapper.getAll st := by
  have hcond : (f.amount = "" || leZeroNum (toNum f.amount)) = true := by
    rcases h with h | ⟨q, hq, hle⟩
    · simp [h]
    · simp [hq, leZeroNum, hle]
  have : addExpense st f = (AddResult.rejected "Amount Must Be Greater Than 0", st) := by
    unfold addExpense
    rw [if_pos hcond]
  exact ⟨this, by rw [this]⟩

/-- C7 witness: submitting `amount: "0"` against a fresh store. -/
theorem addExpense_rejects_nonpositive_witness :
    addExpense IDBWrapper.emptyStore ⟨"0", "food", "lunch", "2024-03-15"⟩
        = (AddResult.rejected "Amount Must Be Greater Than 0", IDBWrapper.emptyStore)
      ∧ IDBWrapper.getAll
          (addExpense IDBWrapper.emptyStore ⟨"0", "food", "lunch", "2024-03-15"⟩).2
        = IDBWrapper.getAll (IDBWrapper.emptyStore (α := ExpenseData)) :=
  addExpense_rejects_nonpositive IDBWrapper.emptyStore ⟨"0", "food", "lunch", "2024-03-15"⟩
    (Or.inr ⟨0, by decide, le_refl 0⟩)

/-- C3: for a selector `m` that splits into a year and a month, the filtered
view is a sublist of the input, and a record is in it exactly when its date
parses to that calendar year and month — the day component is ignored. -/
theorem filteredExpenses_month_spec (S : List Expense) (m : String) (y mo : Int)
    (hm : parseYM m = some (y, mo)) :
    (filteredExpenses S m).Sublist S
      ∧ ∀ e, e ∈ filteredExpenses S m ↔
          (e ∈ S ∧ ∃ ey em d, parseDate e.date = some (ey, em, d)
            ∧ (ey : Int) = y ∧ (em : Int) = mo) := by
  have hne : m ≠ "" := by
    intro hemp
    rw [hemp, parseYM_empty] at hm
    exact Option.noConfusion hm
  have hview : filteredExpenses S m = S.filter (monthPred m) := by
    unfold filteredExpenses
    rw [if_neg hne]
  have hpred : ∀ e : Expense, monthPred m e = true ↔
      ∃ ey em d, parseDate e.date = some (ey, em, d)
        ∧ (ey : Int) = y ∧ (em : Int) = mo := by
    intro e
    unfold monthPred
    rw [hm]
    rcases hd : parseDate e.date with _ | ⟨ey, em, d⟩
    · simp
    · simp only [decide_eq_true_eq, Option.some.injEq, Prod.mk.injEq]
      constructor
      · rintro ⟨hy, hmo⟩
        exact ⟨ey, em, d, ⟨rfl, rfl, rfl⟩, hy, by omega⟩
      · rintro ⟨ey', em', d', ⟨rfl, rfl, rfl⟩, hy, hmo⟩
        exact ⟨hy, by omega⟩
  rw [hview]
  refine ⟨List.filter_sublist S, fun e => ?_⟩
  rw [List.mem_filter, hpred e]

/-- C3 witness: two records, one dated March 2024 and one April 2024, with the
selector `2024-03`. -/
theorem filteredExpenses_month_spec_witness :
    (filteredExpenses [⟨1, 5, "food", "a", "2024-03-01"⟩, ⟨2, 6, "food", "b", "2024-04-01"⟩]
        "2024-03").Sublist
        [⟨1, 5, "food", "a", "2024-03-01"⟩, ⟨2, 6, "food", "b", "2024-04-01"⟩]
      ∧ ∀ e, e ∈ filteredExpenses
            [⟨1, 5, "food", "a", "2024-03-01"⟩, ⟨2, 6, "food", "b", "2024-04-01"⟩] "2024-03" ↔
          (e ∈ [(⟨1, 5, "food", "a", "2024-03-01"⟩ : Expense), ⟨2, 6, "food", "b", "2024-04-01"⟩]
            ∧ ∃ ey em d, parseDate e.date = some (ey, em, d)
              ∧ (ey : Int) = 2024 ∧ (em : Int) = 3) :=
  filteredExpenses_month_spec
    [⟨1, 5, "food", "a", "2024-03-01"⟩, ⟨2, 6, "food", "b", "2024-04-01"⟩]
    "2024-03" 2024 3 (by decide)

/-- C8: a record whose date does not parse is silently dropped: filtering a
list with such a record gives exactly the filter of the list without it (the
computation returns normally over the rest), and every record of any filtered
view has a parsable date. -/
theorem filteredExpenses_skips_malformed (l1 l2 : List Expense) (bad : Expense) (m : String)
    (h : parseDate bad.date = none) :
    filteredExpenses (l1 ++ bad :: l2) m = filteredExpenses (l1 ++ l2) m
      ∧ ∀ e ∈ filteredExpenses (l1 ++ bad :: l2) m, (parseDate e.date).isSome := by
  constructor
  · unfold filteredExpenses
    split
    · rfl
    · rw [List.filter_append, List.filter_append, List.filter_cons,
        monthPred_of_unparsable h]
      simp
  · intro e he
    unfold filteredExpenses at he
    split at he
    · exact absurd he (List.not_mem_nil e)
    · exact monthPred_isSome (List.mem_filter.mp he).2

/-- C8 witness: a record dated `garbage` among two well-dated records, with
the selector `2024-03`. -/
theorem filteredExpenses_skips_malformed_witness :
    filteredExpenses
        ([⟨1, 5, "food", "a", "2024-03-01"⟩] ++ (⟨3, 4, "other", "x", "garbage"⟩ : Expense)
          :: [⟨2, 6, "food", "b", "2024-04-01"⟩]) "2024-03"
      = filteredExpenses
          ([⟨1, 5, "food", "a", "2024-03-01"⟩] ++ [⟨2, 6, "food", "b", "2024-04-01"⟩]) "2024-03"
      ∧ ∀ e ∈ filteredExpenses
          ([⟨1, 5, "food", "a", "2024-03-01"⟩] ++ (⟨3, 4, "other", "x", "garbage"⟩ : Expense)
            :: [⟨2, 6, "food", "b", "2024-04-01"⟩]) "2024-03",
          (parseDate e.date).isSome :=
  filteredExpenses_skips_malformed [⟨1, 5, "food", "a", "2024-03-01"⟩]
    [⟨2, 6, "food", "b", "2024-04-01"⟩] ⟨3, 4, "other", "x", "garbage"⟩ "2024-03" (by decide)

/-! ## Aggregation lemmas -/

lemma addToCat_fst (acc : List (String × ℚ)) (c : String) (a : ℚ) :
    (addToCat acc c a).map Prod.fst =
      if c ∈ acc.map Prod.fst then acc.map Prod.fst else acc.map Prod.fst ++ [c] := by
  induction acc with
  | nil => simp [addToCat]
  | cons p rest ih =>
    obtain ⟨c₀, t⟩ := p
    by_cases hc : c₀ = c
    · subst hc
      simp [addToCat]
    · simp only [addToCat, if_neg hc, List.map_cons, ih]
      by_cases hmem : c ∈ rest.map Prod.fst
      · simp [hmem, Ne.symm hc]
      · simp [hmem, Ne.symm hc]

lemma findAmt_addToCat_same (acc : List (String × ℚ)) (c : String) (a : ℚ) :
    findAmt (addToCat acc c a) c = some ((findAmt acc c).getD 0 + a) := by
  induction acc with
  | nil => simp [addToCat, findAmt]
  | cons p rest ih =>
    obtain ⟨c₀, t⟩ := p
    by_cases hc : c₀ = c
    · subst hc
      simp [addToCat, findAmt]
    · simp [addToCat, findAmt, hc, ih]

lemma findAmt_addToCat_other (acc : List (String × ℚ)) (c : String) (a : ℚ)
    (c' : String) (h : c' ≠ c) :
    findAmt (addToCat acc c a) c' = findAmt acc c' := by
  induction acc with
  | nil => simp [addToCat, findAmt, Ne.symm h]
  | cons p rest ih =>
    obtain ⟨c₀, t⟩ := p
    by_cases hc : c₀ = c
    · subst hc
      simp [addToCat, findAmt, Ne.symm h]
    · by_cases hc' : c₀ = c'
      · simp [addToCat, findAmt, hc, hc', h]
      · simp [addToCat, findAmt, hc, hc', ih]

lemma sumFor_cons_same (e : Expense) (rest : List Expense) (c : String)
    (h : e.category = c) : sumFor (e :: rest) c = e.amount + sumFor rest c := by
  simp [sumFor, List.filter_cons, h]

lemma sumFor_cons_other (e : Expense) (rest : List Expense) (c : String)
    (h : e.category ≠ c) : sumFor (e :: rest) c = sumFor rest c := by
  simp [sumFor, List.filter_cons, h]

lemma findAmt_foldl (es : List Expense) (acc : List (String × ℚ)) (c : String) :
    findAmt (es.foldl (fun acc e => addToCat acc e.category e.amount) acc) c =
      if (findAmt acc c).isSome ∨ c ∈ es.map Expense.category
      then some ((findAmt acc c).getD 0 + sumFor es c) else none := by
  induction es generalizing acc with
  | nil =>
    rcases h : findAmt acc c with _ | t
    · simp [h, sumFor]
    · simp [h, sumFor]
  | cons e rest ih =>
    simp only [List.foldl_cons]
    rw [ih]
    by_cases hc : c = e.category
    · have hsame : findAmt (addToCat acc e.category e.amount) c =
          some ((findAmt acc c).getD 0 + e.amount) := by
        rw [hc]
        exact findAmt_addToCat_same acc e.category e.amount
      rw [hsame]
      have hmem : c ∈ (e :: rest).map Expense.category := by
        simp [hc]
      rw [if_pos (by simp), if_pos (Or.inr hmem)]
      rw [sumFor_cons_same e rest c hc.symm]
      simp [add_assoc]
    · have hother : findAmt (addToCat acc e.category e.amount) c = findAmt acc c :=
        findAmt_addToCat_other acc e.category e.amount c hc
      rw [hother, sumFor_cons_other e rest c (fun hh => hc hh.symm)]
      have hmemiff : c ∈ (e :: rest).map Expense.category ↔ c ∈ rest.map Expense.category := by
        simp [hc]
      exact if_congr (or_congr Iff.rfl hmemiff.symm) rfl rfl

lemma findAmt_categoryTotals (es : List Expense) (c : String) :
    findAmt (categoryTotals es) c =
      if c ∈ es.map Expense.category then some (sumFor es c) else none := by
  have h := findAmt_foldl es [] c
  simpa [categoryTotals, findAmt] using h

lemma categoryTotals_keys_foldl (es : List Expense) (acc : List (String × ℚ)) :
    (es.foldl (fun acc e => addToCat acc e.category e.amount) acc).map Prod.fst =
      (es.map Expense.category).foldl
        (fun ks c => if c ∈ ks then ks else ks ++ [c]) (acc.map Prod.fst) := by
  induction es generalizing acc with
  | nil => simp
  | cons e rest ih =>
    simp only [List.foldl_cons, List.map_cons]
    rw [ih, addToCat_fst]

lemma categoryTotals_fst (es : List Expense) :
    (categoryTotals es).map Prod.fst = firstOcc (es.map Expense.category) := by
  have h := categoryTotals_keys_foldl es []
  simpa [categoryTotals, firstOcc] using h

lemma firstOcc_foldl_nodup (l : List String) (acc : List String) (h : acc.Nodup) :
    (l.foldl (fun ks c => if c ∈ ks then ks else ks ++ [c]) acc).Nodup := by
  induction l generalizing acc with
  | nil => simpa
  | cons c rest ih =>
    simp only [List.foldl_cons]
    apply ih
    by_cases hm : c ∈ acc
    · simpa [hm]
    · rw [if_neg hm]
      simp only [List.nodup_append, List.nodup_cons]
      exact ⟨h, by simp, by simpa [List.disjoint_singleton] using hm⟩

lemma firstOcc_nodup (l : List String) : (firstOcc l).Nodup :=
  firstOcc_foldl_nodup l [] List.nodup_nil

lemma mem_iff_findAmt (l : List (String × ℚ)) (h : (l.map Prod.fst).Nodup)
    (c : String) (t : ℚ) :
    (c, t) ∈ l ↔ findAmt l c = some t := by
  induction l with
  | nil => simp [findAmt]
  | cons p rest ih =>
    obtain ⟨c₀, t₀⟩ := p
    simp only [List.map_cons, List.nodup_cons] at h
    obtain ⟨hc₀, hrest⟩ := h
    by_cases hc : c₀ = c
    · subst hc
      constructor
      · intro hmem
        rcases List.mem_cons.mp hmem with heq | hmem'
        · cases heq
          simp [findAmt]
        · exact absurd (List.mem_map_of_mem Prod.fst hmem') hc₀
      · intro ht
        simp [findAmt] at ht
        subst ht
        exact List.mem_cons_self _ _
    · have hfind : findAmt ((c₀, t₀) :: rest) c = findAmt rest c := by
        simp [findAmt, hc]
      rw [hfind, ← ih hrest]
      constructor
      · intro hmem
        rcases List.mem_cons.mp hmem with heq | hmem'
        · cases heq
          exact absurd rfl hc
        · exact hmem'
      · exact fun hmem => List.mem_cons_of_mem _ hmem

/-! ## Claim theorems: aggregation -/

/-- C4: the totals object maps each category that occurs in the input — and
no other — to the sum of the amounts of the records carrying it, and its keys
stand in first-occurrence order of the categories of the input. -/
theorem categoryTotals_spec (es : List Expense) :
    (categoryTotals es).map Prod.fst = firstOcc (es.map Expense.category)
      ∧ ∀ c t, (c, t) ∈ categoryTotals es ↔
          (c ∈ es.map Expense.category ∧ t = sumFor es c) := by
  have hkeys := categoryTotals_fst es
  refine ⟨hkeys, fun c t => ?_⟩
  have hnd : ((categoryTotals es).map Prod.fst).Nodup := by
    rw [hkeys]
    exact firstOcc_nodup _
  rw [mem_iff_findAmt _ hnd, findAmt_categoryTotals]
  by_cases hm : c ∈ es.map Expense.category
  · simp [hm, eq_comm]
  · simp [hm]

/-- C6: the per-category totals add up to exactly the grand total of the input
amounts (no record is double-counted or dropped); with exact rational
arithmetic the difference is 0, well within the 1e-9 tolerance. -/
theorem categoryTotals_grand_total (es : List Expense) :
    ((categoryTotals es).map Prod.snd).sum = (es.map Expense.amount).sum
      ∧ |((categoryTotals es).map Prod.snd).sum - (es.map Expense.amount).sum|
          ≤ (1 : ℚ) / 1000000000 := by
  have hsum : ∀ (l : List Expense) (acc : List (String × ℚ)),
      ((l.foldl (fun acc e => addToCat acc e.category e.amount) acc).map Prod.snd).sum =
        (acc.map Prod.snd).sum + (l.map Expense.amount).sum := by
    intro l
    induction l with
    | nil => simp
    | cons e rest ih =>
      intro acc
      have hstep : ((addToCat acc e.category e.amount).map Prod.snd).sum =
          (acc.map Prod.snd).sum + e.amount := by
        induction acc with
        | nil => simp [addToCat]
        | cons p racc ihp =>
          obtain ⟨c₀, t⟩ := p
          by_cases hc : c₀ = e.category
          · simp only [addToCat, if_pos hc, List.map_cons, List.sum_cons]
            ring
          · simp only [addToCat, if_neg hc, List.map_cons, List.sum_cons, ihp]
            ring
      simp only [List.foldl_cons, List.map_cons, List.sum_cons]
      rw [ih, hstep]
      ring
  have h : ((categoryTotals es).map Prod.snd).sum = (es.map Expense.amount).sum := by
    have := hsum es []
    simpa [categoryTotals] using this
  refine ⟨h, ?_⟩
  rw [h, sub_self, abs_zero]
  norm_num

/-! ## Claim theorems: sorting and in-memory deletion -/

lemma dateDescLE_trans (a b c : Expense) (hab : dateDescLE a b = true)
    (hbc : dateDescLE b c = true) : dateDescLE a c = true := by
  simp only [dateDescLE, decide_eq_true_eq] at hab hbc ⊢
  exact le_trans hbc hab

lemma dateDescLE_total (a b : Expense) : (dateDescLE a b || dateDescLE b a) = true := by
  simp only [dateDescLE, Bool.or_eq_true, decide_eq_true_eq]
  exact le_total _ _

/-- C9: the in-memory list is sorted by date key in non-increasing order —
on initial load (`fetchExpenses` sorts what `getAll` returned) and after every
successful add (`addExpenseList` merges the new record and re-sorts the whole
list); both results are permutations of their inputs, so no record is lost or
invented by the sorting. -/
theorem inMemory_sorted_by_date_desc (stored es : List Expense) (e : Expense) :
    ((fetchExpenses stored).Pairwise (fun a b => dateKey b.date ≤ dateKey a.date)
      ∧ (fetchExpenses stored).Perm stored)
    ∧ ((addExpenseList es e).Pairwise (fun a b => dateKey b.date ≤ dateKey a.date)
      ∧ (addExpenseList es e).Perm (es ++ [e])) := by
  have hs : ∀ l : List Expense,
      (sortByDateDesc l).Pairwise (fun a b => dateKey b.date ≤ dateKey a.date) := by
    intro l
    have hp := List.sorted_mergeSort dateDescLE_trans dateDescLE_total l
    exact hp.imp (fun h => by simpa [dateDescLE] using h)
  exact ⟨⟨hs stored, List.mergeSort_perm stored dateDescLE⟩,
    hs (es ++ [e]), List.mergeSort_perm (es ++ [e]) dateDescLE⟩
